import Mathlib

/-!
Shallow embedding of the gsync delta-transfer engine (package `gsync`):
the signature generator (`Signatures`, gsync_server.go), the lookup-table
builder (`LookUpTable`, gsync_client.go), the matcher (`Sync` / `sendData`,
gsync_client.go), the applier (`Apply`, gsync_server.go), and the weak
rolling checksums (`rollingHash` in gsync.go; the incremental pair
`rollingHash` / `rollingHash2` from the revision embedded at
gsync_client.go lines 296-317).

Bytes are modelled as `Nat` values; Go's `uint32` arithmetic is modelled by
reducing modulo `u32 = 2^32` exactly where the Go code wraps.  Readers over
in-memory byte slices (`bytes.Reader`) are modelled by `List.drop`/`List.take`
with the Go EOF convention.  Goroutine/channel plumbing is modelled by the
list of records a producer emits; context cancellation, where a claim needs
it, is modelled by the iteration count at which `ctx.Done()` starts firing.
-/

/-- The default block size, `6 * 1024` bytes (gsync.go). -/
def DefaultBlockSize : Nat := 6144

/-- Modulus of the 16-bit rolling checksum: `mod = 1 << 16` (gsync.go). -/
def mod : Nat := 65536

/-- Modulus of Go `uint32` arithmetic, `2^32`. -/
def u32 : Nat := 4294967296

/-- Wrapping `uint32` subtraction: Go `x - y` on `uint32` operands. -/
def sub32 (x y : Nat) : Nat := (x % u32 + (u32 - y % u32)) % u32

/-- The accumulation loop `for i, k := range block { a += ...; b += w(i)*k }`
shared by all revisions of the full-block rolling hash, with the per-index
weight `w` as used by each revision, accumulating in wrapping `uint32`. -/
def rollingSums (w : Nat → Nat) : List Nat → Nat → Nat × Nat → Nat × Nat
  | [], _, ab => ab
  | v :: rest, i, ab =>
      rollingSums w rest (i + 1) ((ab.1 + v) % u32, (ab.2 + (w i * v) % u32) % u32)

/-- `rollingHash` of the repository head (gsync.go lines 19-31): weight
`uint32(l) - uint32(i) + 1` with `l = len(block) - 1`, returning the packed
digest `r1 + mod*r2`. -/
def rollingHash (block : List Nat) : Nat :=
  let l := block.length - 1
  let ab := rollingSums (fun i => l - i + 1) block 0 (0, 0)
  ab.1 % mod + mod * (ab.2 % mod)

namespace Rolling

/-- Full-block rolling hash of the incremental-hash revision
(gsync_client.go lines 296-308): weight `l - uint32(index)` with
`l = uint32(len(block))`, returning `(r1, r2, r)`. -/
def rollingHash (block : List Nat) : Nat × Nat × Nat :=
  let l := block.length
  let ab := rollingSums (fun i => l - i) block 0 (0, 0)
  (ab.1 % mod, ab.2 % mod, ab.1 % mod + mod * (ab.2 % mod))

/-- Incremental rolling checksum update (gsync_client.go lines 311-317):
`r1 = (r1 - outgoingValue + incomingValue) % mod`,
`r2 = (r2 - l*outgoingValue + r1) % mod`, on wrapping `uint32` arithmetic. -/
def rollingHash2 (l r1 r2 outgoingValue incomingValue : Nat) : Nat × Nat × Nat :=
  let r1' := ((sub32 r1 outgoingValue + incomingValue) % u32) % mod
  let r2' := ((sub32 r2 ((l * outgoingValue) % u32) + r1') % u32) % mod
  (r1', r2', r1' + mod * r2')

end Rolling

/-- One file-block signature (gsync.go / gsync_server.go).  `error` is
`some e` when reading or checksumming the block failed. -/
structure BlockSignature where
  index : Nat := 0
  strong : List Nat := []
  weak : Nat := 0
  error : Option Nat := none
deriving DecidableEq

/-- One file re-construction instruction (gsync.go).  A populated `data`
field is a literal; empty `data` instructs the remote end to copy block
`index` from its local copy.  `error` reports a failure in-band. -/
structure BlockOperation where
  index : Nat := 0
  data : List Nat := []
  error : Option Nat := none
deriving DecidableEq

/-- Bytes returned by `bytes.Reader.ReadAt(buf[:n], off)`: up to `n` bytes
starting at `off`; the read is short (and Go reports `io.EOF`) exactly when
fewer than `n` bytes remain. -/
def readAt (s : List Nat) (off n : Nat) : List Nat := (s.drop off).take n

/-- One result of a call to `io.Reader.Read` as seen by `Signatures`
(gsync_server.go lines 51-64): a block of bytes, a read error, or EOF. -/
inductive ReadOutcome where
  | ok (bytes : List Nat)
  | readErr (e : Nat)
  | eof
deriving DecidableEq

/-- The producer loop of `Signatures` (gsync_server.go lines 34-79) over the
successive results of `r.Read`: EOF stops the stream; a read error emits a
signature with `error` set (zero-valued `strong`/`weak`) and continues with
the next index; an ok block emits `{index, weak, strong}` and advances. -/
def signaturesGo (strong : List Nat → List Nat) :
    List ReadOutcome → Nat → List BlockSignature
  | [], _ => []
  | ReadOutcome.eof :: _, _ => []
  | ReadOutcome.readErr e :: rest, index =>
      { index := index, error := some e } :: signaturesGo strong rest (index + 1)
  | ReadOutcome.ok b :: rest, index =>
      { index := index, weak := rollingHash b, strong := strong b }
        :: signaturesGo strong rest (index + 1)

/-- Successive blocks returned by `bytes.Reader.Read` with buffer size `bs`:
while bytes remain, the next `min bs remaining` bytes; the fuel bound
`length + 1` suffices for any `bs ≥ 1`. -/
def readChunks (bs : Nat) : Nat → List Nat → List (List Nat)
  | 0, _ => []
  | _ + 1, [] => []
  | fuel + 1, v :: rest => (v :: rest).take bs :: readChunks bs fuel ((v :: rest).drop bs)

/-- The `Read`-result stream a `bytes.Reader` over `cache` yields to
`Signatures`: every chunk succeeds, then one EOF. -/
def readOutcomesOf (bs : Nat) (cache : List Nat) : List ReadOutcome :=
  (readChunks bs (cache.length + 1) cache).map ReadOutcome.ok ++ [ReadOutcome.eof]

/-- `Signatures(ctx, bytes.NewReader(cache), strong)`: the block signatures
of `cache` at block size `bs` (gsync_server.go lines 20-82). -/
def signaturesOf (bs : Nat) (strong : List Nat → List Nat) (cache : List Nat) :
    List BlockSignature :=
  signaturesGo strong (readOutcomesOf bs cache) 0

/-- Error value used to model `ctx.Err()` after cancellation. -/
def ctxCanceled : Nat := 0

/-- `LookUpTable` (gsync_client.go lines 20-38).  The Go map
`map[uint32][]BlockSignature` with per-key insertion order is represented by
the insertion-ordered list of the signatures actually inserted; buckets are
recovered by `bucketOf`.  `cancelAt = some k` models a context whose
`Done` channel starts firing at the `k`-th loop iteration (0-based); the
check happens after a signature is received and before it is processed.
Error-carrying signatures are logged and skipped. -/
def lookUpTableGo : Option Nat → List BlockSignature → List BlockSignature × Option Nat
  | _, [] => ([], none)
  | cancelAt, c :: rest =>
    match cancelAt with
    | some 0 => ([], some ctxCanceled)
    | _ =>
      let cancelAt' := cancelAt.map (· - 1)
      match c.error with
      | some _ => lookUpTableGo cancelAt' rest
      | none =>
        let r := lookUpTableGo cancelAt' rest
        (c :: r.1, r.2)

/-- The bucket `table[w]` of the lookup table: all inserted signatures whose
weak hash is `w`, in insertion order (missing key ↔ empty bucket). -/
def bucketOf (table : List BlockSignature) (w : Nat) : List BlockSignature :=
  table.filter (fun s => s.weak == w)

/-- The bytes `Apply` writes for one error-free operation
(gsync_server.go lines 102-114): the literal payload when `len(o.Data) > 0`,
otherwise up to `bs` bytes read from the cache at offset `index*bs`
(a short read at cache EOF is honored). -/
def opBytes (bs : Nat) (cache : List Nat) (o : BlockOperation) : List Nat :=
  if o.data.length > 0 then o.data else readAt cache (o.index * bs) bs

/-- `Apply` (gsync_server.go lines 85-122) over the operation stream:
returns the bytes written to `dst` and the terminal error, aborting at the
first error-carrying operation. -/
def applyOps (bs : Nat) (cache : List Nat) : List BlockOperation → List Nat × Option Nat
  | [] => ([], none)
  | o :: rest =>
    match o.error with
    | some e => ([], some e)
    | none =>
      let r := applyOps bs cache rest
      (opBytes bs cache o ++ r.1, r.2)

/-- `sendData` (gsync_client.go lines 174-206): starting at
`lastMatchOffset` it repeatedly reads up to `bs` bytes, emits each read as a
`Data` operation, and stops only at EOF — its `currentOffset` argument is
unused by the Go body.  Fuel-indexed; `none` means the fuel ran out before
the Go loop terminated. -/
def sendDataGo (bs : Nat) (src : List Nat) : Nat → Nat → Option (List BlockOperation)
  | 0, _ => none
  | fuel + 1, offset =>
    let block := readAt src offset bs
    if block.length < bs then
      some [{ data := block }]
    else
      match sendDataGo bs src fuel (offset + block.length) with
      | none => none
      | some rest => some ({ data := block } :: rest)

/-- The goroutine body of `Sync` (gsync_client.go lines 62-169).  State:
`currentOffset`, `lastMatchOffset`, `newData`, exactly as in the source.
Each iteration reads up to `bs` bytes at `currentOffset` (`io.EOF` iff the
read is short); with an empty lookup table the block is emitted as data;
otherwise the weak hash selects a bucket and the first strong-hash match
emits (pending data via `sendDataGo`, then) a copy operation and restarts
the search after the matched block, while a miss advances one byte.
Fuel-indexed; `none` means the fuel ran out. -/
def syncLoopGo (bs : Nat) (strong : List Nat → List Nat) (src : List Nat)
    (remote : List BlockSignature) :
    Nat → Nat → Nat → Bool → Option (List BlockOperation)
  | 0, _, _, _ => none
  | fuel + 1, currentOffset, lastMatchOffset, newData =>
    let block := readAt src currentOffset bs
    let isEOF := block.length < bs
    if remote.isEmpty then
      if isEOF then
        some [{ data := block }]
      else
        match syncLoopGo bs strong src remote fuel (currentOffset + block.length)
            lastMatchOffset newData with
        | none => none
        | some rest => some ({ data := block } :: rest)
    else
      let weak := rollingHash block
      let s := strong block
      match (bucketOf remote weak).find? (fun b => b.strong == s) with
      | some b =>
        match (if newData then sendDataGo bs src fuel lastMatchOffset else some []) with
        | none => none
        | some preOps =>
          let co := currentOffset + block.length
          if isEOF then
            some (preOps ++ [{ index := b.index }])
          else
            match syncLoopGo bs strong src remote fuel co co false with
            | none => none
            | some rest => some (preOps ++ { index := b.index } :: rest)
      | none =>
        if isEOF then
          sendDataGo bs src fuel lastMatchOffset
        else
          syncLoopGo bs strong src remote fuel (currentOffset + 1) lastMatchOffset true

/-- `Sync(ctx, bytes.NewReader(src), strong, remote)`
(gsync_client.go lines 46-172), started with zero offsets and no pending
data. -/
def syncGo (bs : Nat) (strong : List Nat → List Nat) (src : List Nat)
    (remote : List BlockSignature) (fuel : Nat) : Option (List BlockOperation) :=
  syncLoopGo bs strong src remote fuel 0 0 false

/-- The whole pipeline of the repository's own test (gsync_test.go
`TestSync`): `Signatures(cache) → LookUpTable → Sync(src) → Apply(cache)`,
returning the reconstructed bytes. -/
def pipelineRun (bs : Nat) (strong : List Nat → List Nat) (src cache : List Nat)
    (fuel : Nat) : Option (List Nat) :=
  let table := (lookUpTableGo none (signaturesOf bs strong cache)).1
  match syncGo bs strong src table fuel with
  | none => none
  | some ops => some (applyOps bs cache ops).1

/-- Weighted byte sum `Σ w(i)·block[i]` with index-dependent weight `w`,
starting at index `i`: the ideal (non-wrapping) value of the `b`
accumulator of the rolling-hash loops. -/
def wsumW (w : Nat → Nat) : Nat → List Nat → Nat
  | _, [] => 0
  | i, v :: rest => w i * v + wsumW w (i + 1) rest

/-- The weighted sum `Σ (L - i)·block[i]` of a block. -/
def wsumL (L : Nat) (l : List Nat) : Nat := wsumW (fun i => L - i) 0 l

/-- The weighted sum the specification prescribes for the full-block hash,
written with the spec's own indexing: `b_sum = Σ (L − i)·b[i]` where `L` is
the block length (leading byte weight `L`, trailing byte weight `1`). -/
def specWeightedSum (block : List Nat) : Nat :=
  (block.enum.map (fun p => (block.length - p.1) * p.2)).sum

theorem wsumW_congr (w w' : Nat → Nat) :
    ∀ (l : List Nat) (i : Nat), (∀ j, i ≤ j → j < i + l.length → w j = w' j) →
      wsumW w i l = wsumW w' i l
  | [], _, _ => rfl
  | v :: rest, i, h => by
      have hw : w i = w' i := h i (le_refl i) (by simp)
      have ih := wsumW_congr w w' rest (i + 1) (fun j hj1 hj2 => h j (by omega) (by
        simp only [List.length_cons]
        omega))
      simp only [wsumW, hw, ih]

theorem wsumW_shift (L : Nat) :
    ∀ (l : List Nat) (i : Nat), wsumW (fun j => L - j) (i + 1) l = wsumW (fun j => L - 1 - j) i l
  | [], _ => rfl
  | v :: rest, i => by
      simp only [wsumW]
      rw [wsumW_shift L rest (i + 1)]
      have h : L - (i + 1) = L - 1 - i := by omega
      rw [h]

theorem wsumL_cons (L x : Nat) (m : List Nat) :
    wsumL L (x :: m) = L * x + wsumL (L - 1) m := by
  simp only [wsumL, wsumW, Nat.sub_zero]
  rw [wsumW_shift]

theorem wsumL_append (m : List Nat) (y : Nat) :
    wsumL (m.length + 1) (m ++ [y]) = wsumL m.length m + m.sum + y := by
  induction m with
  | nil => simp [wsumL, wsumW]
  | cons x m ih =>
      have h1 : ((x :: m) ++ [y]) = x :: (m ++ [y]) := rfl
      rw [h1, show (x :: m).length + 1 = (m.length + 1) + 1 by simp, wsumL_cons]
      simp only [Nat.add_sub_cancel]
      rw [ih, wsumL_cons]
      simp [List.sum_cons]
      ring

theorem specWeightedSum_enumFrom (n : Nat) :
    ∀ (l : List Nat) (i : Nat),
      ((List.enumFrom i l).map (fun p => (n - p.1) * p.2)).sum = wsumW (fun j => n - j) i l
  | [], _ => rfl
  | v :: rest, i => by
      simp only [List.enumFrom, List.map_cons, List.sum_cons, wsumW]
      rw [specWeightedSum_enumFrom n rest (i + 1)]

theorem specWeightedSum_eq (block : List Nat) :
    specWeightedSum block = wsumL block.length block := by
  simp only [specWeightedSum, wsumL, List.enum]
  exact specWeightedSum_enumFrom block.length block 0

theorem u32_pos : 0 < u32 := by norm_num [u32]

theorem mod_dvd_u32 : mod ∣ u32 := ⟨65536, by norm_num [mod, u32]⟩

theorem mod_u32_mod (x : Nat) : x % u32 % mod = x % mod :=
  Nat.mod_mod_of_dvd x mod_dvd_u32

theorem rollingSums_spec (w : Nat → Nat) :
    ∀ (bl : List Nat) (i a b : Nat), a < u32 → b < u32 →
      rollingSums w bl i (a, b) = ((a + bl.sum) % u32, (b + wsumW w i bl) % u32)
  | [], i, a, b, ha, hb => by
      simp [rollingSums, wsumW, Nat.mod_eq_of_lt ha, Nat.mod_eq_of_lt hb]
  | v :: rest, i, a, b, ha, hb => by
      simp only [rollingSums]
      rw [rollingSums_spec w rest (i + 1) _ _ (Nat.mod_lt _ u32_pos) (Nat.mod_lt _ u32_pos)]
      simp only [List.sum_cons, wsumW, Prod.mk.injEq]
      refine ⟨by simp only [u32]; omega, by simp only [u32]; omega⟩

theorem rollingHash_formula (block : List Nat) :
    rollingHash block = block.sum % mod + mod * (wsumL block.length block % mod) := by
  simp only [rollingHash]
  rw [rollingSums_spec _ block 0 0 0 u32_pos u32_pos]
  simp only [Nat.zero_add, mod_u32_mod]
  rw [wsumW_congr (fun i => block.length - 1 - i + 1) (fun i => block.length - i) block 0
    (fun j h1 h2 => by change block.length - 1 - j + 1 = block.length - j; omega)]
  rfl

theorem Rolling.rollingHash_eq (block : List Nat) :
    Rolling.rollingHash block
      = (block.sum % mod, wsumL block.length block % mod,
         block.sum % mod + mod * (wsumL block.length block % mod)) := by
  simp only [Rolling.rollingHash]
  rw [rollingSums_spec _ block 0 0 0 u32_pos u32_pos]
  simp only [Nat.zero_add, mod_u32_mod]
  rfl

theorem cast_u32 : ((u32 : Nat) : ZMod mod) = 0 := by
  have h : (u32 : Nat) = mod * 65536 := by norm_num [u32, mod]
  rw [h]
  push_cast
  rw [ZMod.natCast_self]
  ring

theorem cast_mod_u32 (x : Nat) : ((x % u32 : Nat) : ZMod mod) = (x : ZMod mod) := by
  have h : ((u32 * (x / u32) + x % u32 : Nat) : ZMod mod) = (x : ZMod mod) := by
    rw [Nat.div_add_mod x u32]
  push_cast at h
  rw [cast_u32] at h
  linear_combination h

theorem cast_sub32 (x y : Nat) :
    ((sub32 x y : Nat) : ZMod mod) = (x : ZMod mod) - (y : ZMod mod) := by
  unfold sub32
  rw [cast_mod_u32]
  have hy : y % u32 ≤ u32 := le_of_lt (Nat.mod_lt _ u32_pos)
  push_cast [hy]
  rw [cast_u32, cast_mod_u32, cast_mod_u32]
  ring

theorem mod_eq_of_cast_eq {a b : Nat} (h : (a : ZMod mod) = (b : ZMod mod)) :
    a % mod = b % mod :=
  (ZMod.natCast_eq_natCast_iff' a b mod).mp h

theorem rollingHash2_spec (L A B A' B' x inc : Nat)
    (hA : A' + x = A + inc) (hB : B' + L * x = B + A') :
    Rolling.rollingHash2 L (A % mod) (B % mod) x inc
      = (A' % mod, B' % mod, A' % mod + mod * (B' % mod)) := by
  have hAc : ((A' : Nat) : ZMod mod) + x = (A : ZMod mod) + inc := by
    have := congrArg (fun t : Nat => ((t : Nat) : ZMod mod)) hA
    push_cast at this
    exact this
  have hBc : ((B' : Nat) : ZMod mod) + L * x = (B : ZMod mod) + A' := by
    have := congrArg (fun t : Nat => ((t : Nat) : ZMod mod)) hB
    push_cast at this
    exact this
  have h1 : (sub32 (A % mod) x + inc) % u32 % mod = A' % mod := by
    apply mod_eq_of_cast_eq
    rw [cast_mod_u32]
    push_cast
    rw [cast_sub32, ZMod.natCast_mod]
    linear_combination -hAc
  have h2 : (sub32 (B % mod) (L * x % u32) + A' % mod) % u32 % mod = B' % mod := by
    apply mod_eq_of_cast_eq
    rw [cast_mod_u32]
    push_cast
    rw [cast_sub32, ZMod.natCast_mod, cast_mod_u32, ZMod.natCast_mod]
    push_cast
    linear_combination -hBc
  simp only [Rolling.rollingHash2]
  rw [h1, h2]

/-- C3: rolling-hash consistency — for every byte string `b`, window length
`L` and offset `k ≥ 1` with both windows in range, the incremental update
`rollingHash2`, applied to the fresh hash state of window `b[k−1..k−1+L)`
with outgoing byte `b[k−1]` and incoming byte `b[k+L−1]`, returns exactly
the `(r1, r2, digest)` of the fresh `rollingHash` of window `b[k..k+L)`;
subtractions are modular in `M = 2^16` on unsigned 32-bit arithmetic. -/
theorem rolling_incremental_consistent (b : List Nat) (L k : Nat)
    (hk : 1 ≤ k) (hkL : k + L ≤ b.length) :
    Rolling.rollingHash2 L
        (Rolling.rollingHash (readAt b (k - 1) L)).1
        (Rolling.rollingHash (readAt b (k - 1) L)).2.1
        (b.getD (k - 1) 0) (b.getD (k + L - 1) 0)
      = Rolling.rollingHash (readAt b k L) := by
  cases L with
  | zero =>
      simp only [readAt, List.take_zero, Nat.add_zero]
      have h := rollingHash2_spec 0 0 0 0 0 (b.getD (k - 1) 0) (b.getD (k - 1) 0)
        (by ring) (by ring)
      simpa using h
  | succ Lm =>
      have hbl : k - 1 < b.length := by omega
      have hbk : k + Lm < b.length := by omega
      have hk1 : k - 1 + 1 = k := by omega
      have e_old : readAt b (k - 1) (Lm + 1) = b[k - 1] :: readAt b k Lm := by
        simp only [readAt]
        rw [List.drop_eq_getElem_cons hbl, hk1, List.take_succ_cons]
      have e_new : readAt b k (Lm + 1) = readAt b k Lm ++ [b[k + Lm]] := by
        simp only [readAt]
        rw [List.take_succ]
        congr 1
        have hdl : Lm < (b.drop k).length := by
          simp only [List.length_drop]
          omega
        rw [List.getElem?_eq_getElem hdl]
        simp [List.getElem_drop]
      have e_x : b.getD (k - 1) 0 = b[k - 1] := List.getD_eq_getElem b 0 hbl
      have e_inc : b.getD (k + (Lm + 1) - 1) 0 = b[k + Lm] := by
        have h : k + (Lm + 1) - 1 = k + Lm := by omega
        rw [h]
        exact List.getD_eq_getElem b 0 hbk
      have hmlen : (readAt b k Lm).length = Lm := by
        simp only [readAt, List.length_take, List.length_drop]
        omega
      rw [e_old, e_x, e_inc, e_new]
      rw [Rolling.rollingHash_eq (b[k - 1] :: readAt b k Lm),
        Rolling.rollingHash_eq (readAt b k Lm ++ [b[k + Lm]])]
      simp only [List.sum_cons, List.length_cons, List.sum_append, List.sum_cons,
        List.sum_nil, List.length_append, List.length_cons, List.length_nil, hmlen]
      simp only [Nat.add_zero, Nat.zero_add]
      rw [wsumL_cons (Lm + 1) (b[k - 1]) (readAt b k Lm)]
      rw [show Lm + 1 - 1 = Lm by omega]
      rw [show wsumL (Lm + 1) (readAt b k Lm ++ [b[k + Lm]])
            = wsumL Lm (readAt b k Lm) + (readAt b k Lm).sum + b[k + Lm] by
          conv_lhs => rw [show Lm + 1 = (readAt b k Lm).length + 1 by rw [hmlen]]
          rw [wsumL_append, hmlen]]
      exact rollingHash2_spec (Lm + 1) (b[k - 1] + (readAt b k Lm).sum)
        ((Lm + 1) * b[k - 1] + wsumL Lm (readAt b k Lm))
        ((readAt b k Lm).sum + b[k + Lm])
        (wsumL Lm (readAt b k Lm) + (readAt b k Lm).sum + b[k + Lm])
        (b[k - 1]) (b[k + Lm]) (by ring) (by ring)

theorem c3_witness :
    Rolling.rollingHash2 3
        (Rolling.rollingHash (readAt [1, 2, 3, 4, 5] 0 3)).1
        (Rolling.rollingHash (readAt [1, 2, 3, 4, 5] 0 3)).2.1
        ([1, 2, 3, 4, 5].getD 0 0) ([1, 2, 3, 4, 5].getD 3 0)
      = Rolling.rollingHash (readAt [1, 2, 3, 4, 5] 1 3) :=
  rolling_incremental_consistent [1, 2, 3, 4, 5] 3 1 (by decide) (by decide)

/-- C4: for every non-empty block `b` of length `L`, `rollingHash` computes
`a = Σ b[i]` and `b_sum = Σ (L−i)·b[i]` — leading byte weight `L`, trailing
byte weight `1`, the `L−i` weighting and not `L−i+1` — and returns the
digest `(a mod M) + M·(b_sum mod M)` with `M = 2^16`. -/
theorem rollingHash_weighting (block : List Nat) (hblock : block ≠ []) :
    rollingHash block = block.sum % mod + mod * (specWeightedSum block % mod) := by
  rw [rollingHash_formula, specWeightedSum_eq]

theorem c4_witness :
    rollingHash [97, 98, 99, 100]
      = [97, 98, 99, 100].sum % mod + mod * (specWeightedSum [97, 98, 99, 100] % mod) :=
  rollingHash_weighting [97, 98, 99, 100] (by decide)

/-- C6: `Apply` writes, per error-free operation and in stream order, the
literal payload when the operation carries data, otherwise the cache bytes
at offset `Index·BlockSize` (up to `BlockSize`, honoring a short read at
cache EOF); the output is the in-order concatenation. -/
theorem apply_per_op_semantics (bs : Nat) (cache : List Nat)
    (ops : List BlockOperation) (h : ∀ o ∈ ops, o.error = none) :
    applyOps bs cache ops = ((ops.map (opBytes bs cache)).flatten, none) := by
  induction ops with
  | nil => rfl
  | cons o rest ih =>
      have ho : o.error = none := h o (List.mem_cons_self o rest)
      have ih' := ih (fun x hx => h x (List.mem_cons_of_mem o hx))
      simp [applyOps, ho, ih']

theorem c6_witness :
    applyOps 4 [1, 2, 3, 4, 5] [{ data := [9] }, { index := 1 }]
      = (([{ data := [9] }, { index := 1 }].map (opBytes 4 [1, 2, 3, 4, 5])).flatten, none) :=
  apply_per_op_semantics 4 [1, 2, 3, 4, 5] [{ data := [9] }, { index := 1 }] (by decide)

/-- C8: `Apply` aborts at the first error-carrying operation: it returns
that operation's error and writes only the bytes of the strictly preceding
error-free operations — nothing at or after the error record is applied. -/
theorem apply_aborts_at_error (bs : Nat) (cache : List Nat)
    (pre post : List BlockOperation) (o : BlockOperation) (e : Nat)
    (hpre : ∀ x ∈ pre, x.error = none) (ho : o.error = some e) :
    applyOps bs cache (pre ++ o :: post) = ((pre.map (opBytes bs cache)).flatten, some e) := by
  induction pre with
  | nil => simp [applyOps, ho]
  | cons p rest ih =>
      have hp : p.error = none := hpre p (List.mem_cons_self p rest)
      have ih' := ih (fun x hx => hpre x (List.mem_cons_of_mem p hx))
      simp [applyOps, hp, ih']

theorem c8_witness :
    applyOps 4 [1, 2, 3, 4, 5]
        ([{ data := [9] }] ++ { error := some 7 } :: [{ data := [8] }])
      = (([{ data := [9] }].map (opBytes 4 [1, 2, 3, 4, 5])).flatten, some 7) :=
  apply_aborts_at_error 4 [1, 2, 3, 4, 5] [{ data := [9] }] [{ data := [8] }]
    { error := some 7 } 7 (by decide) (by decide)

/-- C10: at the `Apply` interface a literal is distinguished from a copy
solely by `len(Data) > 0`: an error-free operation with empty `Data`
(including a would-be zero-length literal) is applied as a copy of block
`Index`, appending the cache bytes at offset `Index·BlockSize`. -/
theorem apply_empty_data_is_copy (bs : Nat) (cache : List Nat)
    (o : BlockOperation) (ops : List BlockOperation)
    (herr : o.error = none) (hdata : o.data = []) :
    applyOps bs cache (o :: ops)
      = (readAt cache (o.index * bs) bs ++ (applyOps bs cache ops).1,
         (applyOps bs cache ops).2) := by
  simp [applyOps, opBytes, herr, hdata]

theorem c10_witness :
    applyOps 4 [1, 2, 3, 4, 5] ({ } :: [])
      = (readAt [1, 2, 3, 4, 5] (0 * 4) 4 ++ (applyOps 4 [1, 2, 3, 4, 5] []).1,
         (applyOps 4 [1, 2, 3, 4, 5] []).2) :=
  apply_empty_data_is_copy 4 [1, 2, 3, 4, 5] { } [] (by decide) (by decide)

theorem signaturesGo_indices (strong : List Nat → List Nat) :
    ∀ (reads : List ReadOutcome) (i : Nat),
      (signaturesGo strong reads i).map (fun s => s.index)
        = List.range' i (signaturesGo strong reads i).length
  | [], _ => rfl
  | ReadOutcome.eof :: _, _ => rfl
  | ReadOutcome.readErr e :: rest, i => by
      simp [signaturesGo, List.range'_succ, signaturesGo_indices strong rest (i + 1)]
  | ReadOutcome.ok b :: rest, i => by
      simp [signaturesGo, List.range'_succ, signaturesGo_indices strong rest (i + 1)]

/-- C7: `Signatures` emits signatures whose indices are `0, 1, 2, …` with no
gaps; a read error on a block emits a signature with its `error` field set
and generation continues at the next index, while EOF ends the sequence
cleanly without emitting an error signature. -/
theorem signatures_index_contract (strong : List Nat → List Nat) :
    (∀ reads : List ReadOutcome,
        (signaturesGo strong reads 0).map (fun s => s.index)
          = List.range (signaturesGo strong reads 0).length)
    ∧ (∀ (e : Nat) (rest : List ReadOutcome) (i : Nat),
        signaturesGo strong (ReadOutcome.readErr e :: rest) i
          = { index := i, error := some e } :: signaturesGo strong rest (i + 1))
    ∧ (∀ (rest : List ReadOutcome) (i : Nat),
        signaturesGo strong (ReadOutcome.eof :: rest) i = []) := by
  refine ⟨fun reads => ?_, fun e rest i => rfl, fun rest i => rfl⟩
  rw [List.range_eq_range']
  exact signaturesGo_indices strong reads 0

theorem lookUpTableGo_none (sigs : List BlockSignature) :
    lookUpTableGo none sigs = (sigs.filter (fun s => s.error == none), none) := by
  induction sigs with
  | nil => rfl
  | cons c rest ih =>
      cases hc : c.error with
      | some e => simp [lookUpTableGo, hc, ih, List.filter_cons]
      | none => simp [lookUpTableGo, hc, ih, List.filter_cons]

theorem lookUpTableGo_cancel :
    ∀ (sigs : List BlockSignature) (k : Nat), k < sigs.length →
      lookUpTableGo (some k) sigs
        = ((sigs.take k).filter (fun s => s.error == none), some ctxCanceled)
  | [], k, h => absurd h (by simp)
  | c :: rest, 0, _ => by simp [lookUpTableGo]
  | c :: rest, j + 1, h => by
      have ih := lookUpTableGo_cancel rest j (by simpa using h)
      cases hc : c.error with
      | some e => simp [lookUpTableGo, hc, ih, List.filter_cons]
      | none => simp [lookUpTableGo, hc, ih, List.filter_cons]

/-- C9: `LookUpTable` drains the whole signature stream into a table whose
bucket for each weak hash holds exactly the error-free signatures bearing
that weak hash, in arrival order — error-carrying signatures are never
inserted — and, when the context is cancelled at iteration `k` mid-build,
it returns the partial table built from the first `k` signatures together
with a non-`nil` cancellation error. -/
theorem lookup_table_contract :
    (∀ (sigs : List BlockSignature) (w : Nat),
        bucketOf (lookUpTableGo none sigs).1 w
          = sigs.filter (fun s => s.weak == w && s.error == none)
        ∧ (lookUpTableGo none sigs).2 = none)
    ∧ (∀ (sigs : List BlockSignature) (k : Nat), k < sigs.length →
        lookUpTableGo (some k) sigs
          = ((sigs.take k).filter (fun s => s.error == none), some ctxCanceled)) := by
  refine ⟨fun sigs w => ⟨?_, by rw [lookUpTableGo_none]⟩,
    fun sigs k h => lookUpTableGo_cancel sigs k h⟩
  rw [lookUpTableGo_none]
  simp only [bucketOf, List.filter_filter]

theorem c9_witness :
    lookUpTableGo (some 1) [{ weak := 5 }, { weak := 6 }]
      = (([{ weak := 5 }, { weak := 6 }].take 1).filter (fun s => s.error == none),
         some ctxCanceled) :=
  lookup_table_contract.2 [{ weak := 5 }, { weak := 6 }] 1 (by decide)

/-- C1 (refuted on the code): at source `S = []` and cache `C = [1, 2, 3]`
with the code's own `DefaultBlockSize`, the pipeline
`Apply(Sync(S, LookUpTable(Signatures(C))), C)` reconstructs `[1, 2, 3]`
— the cache block, because the drain path emits an operation with empty
`Data` which `Apply` executes as a copy of block 0 — and not `S`. -/
theorem roundtrip_identity_fails :
    pipelineRun DefaultBlockSize id [] [1, 2, 3] 2 = some [1, 2, 3]
    ∧ pipelineRun DefaultBlockSize id [] [1, 2, 3] 2 ≠ some [] := by
  exact ⟨by decide, by decide⟩

/-- C2 (refuted on the code): for cache `"abcd"`, source `"aaabcd"` and
block size 4, `Sync` emits `[Literal "aaab", Literal "cd", Copy 0,
empty-Data op]` — `sendData` streams from the last match offset all the way
to source EOF (its `currentOffset` argument is unused) and the drain adds
an empty operation — so reconstruction yields
`"aaabcdabcdabcd"`, not the claimed `[Literal "aa", Copy 0]` / `"aaabcd"`. -/
theorem sync_literal_flush_fails :
    syncGo 4 id [97, 97, 97, 98, 99, 100]
        (lookUpTableGo none (signaturesOf 4 id [97, 98, 99, 100])).1 16
      = some [{ data := [97, 97, 97, 98] }, { data := [99, 100] },
              { index := 0 }, { data := [] }]
    ∧ pipelineRun 4 id [97, 97, 97, 98, 99, 100] [97, 98, 99, 100] 16
      = some [97, 97, 97, 98, 99, 100, 97, 98, 99, 100, 97, 98, 99, 100] := by
  exact ⟨by decide, by decide⟩

/-- C5 (refuted on the code): for an empty source file `Sync` emits one
operation carrying zero bytes — not zero operations — both on the
empty-lookup-table path and on the EOF-drain path with a populated table. -/
theorem sync_emits_zero_byte_op :
    syncGo DefaultBlockSize id [] [] 2
      = some [{ index := 0, data := [], error := none }]
    ∧ syncGo DefaultBlockSize id []
        (lookUpTableGo none (signaturesOf DefaultBlockSize id [1, 2, 3])).1 4
      = some [{ index := 0, data := [], error := none }] := by
  exact ⟨by decide, by decide⟩
